import Mathlib

/-! MC_Vec::Vector (src/vector.h): a shallow embedding

The class template `MC_Vec::Vector<T>` owns one heap block `elem` of `space`
slots, of which the first `sizeV` are live.

Modelling decisions.

* An `int` is a mathematical integer (`Int`).  Indices may be negative (the loop
  of `resize` starts at `size - 1`), so `Nat` would not do.  Arithmetic is not
  wrapped: the sizes the development talks about are sizes of arrays that exist.
* A pointer `T*` is an address (`Int`), counted in slots of `T`; `nullptr` is
  address `0`.  `p + k`, `p - q` and `p < q` are the integer operations.
* The heap block that `elem` points to is carried in the vector as `store`.  A
  slot holds `some x` after `x` was written to it and `none` while it still has
  the indeterminate value left by `new T[n]`.
* Dereferencing an address outside the block `elem` points to (or dereferencing
  through a null `elem`) is undefined behaviour in C++; here it is the result
  `Except.error Fault.outOfBounds`.
* `new T[n]` returns an address chosen by the allocator.  Every operation that
  may allocate takes that address as its last argument `a`.
* The element type `T` must be constructible from the literal `0`
  (`elem[index] = 0`, `const T& value = 0`): `[Zero T]`.
* Loops carry a fuel argument and test the guard of the source at each
  iteration; the caller passes the number of iterations the guard allows.
-/

namespace MC_Vec

/-- The ways in which a call can fail to produce a state. -/
inductive Fault where
  | outOfBounds
  | badAlloc
  | outOfFuel
deriving DecidableEq, Repr

/-- A heap block: one cell per slot, `none` for an indeterminate value. -/
abbrev Block (T : Type) := List (Option T)

/-- Read of `b[i]` for a block `b`. -/
def blockRead {T : Type} (b : Block T) (i : Int) : Except Fault (Option T) :=
  if 0 ≤ i ∧ i < b.length then .ok (b.getD i.toNat none) else .error .outOfBounds

/-- Write `b[i] = x` for a block `b`. -/
def blockWrite {T : Type} (b : Block T) (i : Int) (x : Option T) : Except Fault (Block T) :=
  if 0 ≤ i ∧ i < b.length then .ok (b.set i.toNat x) else .error .outOfBounds

/-- The block of `new T[n]`: `n` indeterminate slots; a negative `n` throws. -/
def newArray {T : Type} (n : Int) : Except Fault (Block T) :=
  if n < 0 then .error .badAlloc else .ok (List.replicate n.toNat none)

/-- The data members of `Vector<T>` (lines 71-73) and the block `elem` points to. -/
structure Vector (T : Type) where
  sizeV : Int
  space : Int
  elem  : Int
  store : Block T
deriving DecidableEq, Repr

namespace Vector

variable {T : Type}

/-- Read through a pointer, `*p`. -/
def load (v : Vector T) (p : Int) : Except Fault (Option T) :=
  if v.elem = 0 then .error .outOfBounds else blockRead v.store (p - v.elem)

/-- Write through a pointer, `*p = x`. -/
def put (v : Vector T) (p : Int) (x : Option T) : Except Fault (Vector T) :=
  if v.elem = 0 then .error .outOfBounds
  else (blockWrite v.store (p - v.elem) x).map (fun s => { v with store := s })

/-- Subscript `operator[]` (lines 40-41): `elem[index]`, no bounds check. -/
def get (v : Vector T) (index : Int) : Except Fault (Option T) :=
  v.load (v.elem + index)

/-- Iterator `begin()` (line 47). -/
def begin (v : Vector T) : Int := if v.sizeV ≠ 0 then v.elem + 0 else 0

/-- Iterator `end()` (line 49). -/
def end_ (v : Vector T) : Int := if v.sizeV ≠ 0 then v.elem + v.sizeV else 0

/-- Accessor `size()` (line 53). -/
def size (v : Vector T) : Int := v.sizeV

/-- Accessor `capacity()` (line 54). -/
def capacity (v : Vector T) : Int := v.space

/-- Default constructor (lines 88-90). -/
def default : Vector T := { sizeV := 0, space := 0, elem := 0, store := [] }

/-- The loop `for (index = lo; index < hi; ++index) elem[index] = x`
(lines 135-138, 290-293, 302-305). -/
def fillLoop : Nat → Vector T → Int → Int → T → Except Fault (Vector T)
  | 0, v, index, hi, _ => if index < hi then .error .outOfFuel else .ok v
  | fuel + 1, v, index, hi, x =>
    if index < hi then
      (v.put (v.elem + index) (some x)).bind (fun w => fillLoop fuel w (index + 1) hi x)
    else .ok v

/-- The loop `for (index = 0; index < n; ++index) array[index] = src.elem[index]`
(lines 158-161, 223-226, 334-337). -/
def copyLoop : Nat → Vector T → Block T → Int → Int → Except Fault (Block T)
  | 0, _, array, index, n => if index < n then .error .outOfFuel else .ok array
  | fuel + 1, src, array, index, n =>
    if index < n then
      (src.load (src.elem + index)).bind (fun x =>
        (blockWrite array index x).bind (fun array2 =>
          copyLoop fuel src array2 (index + 1) n))
    else .ok array

/-- Constructor `Vector(int space, const T& value)` (lines 131-139). -/
def ofFill (space : Int) (value : T) (a : Int) : Except Fault (Vector T) :=
  (newArray space).bind (fun b =>
    fillLoop space.toNat { sizeV := space, space := space, elem := a, store := b }
      0 space value)

/-- Copy constructor (lines 154-162). -/
def copy (source : Vector T) (a : Int) : Except Fault (Vector T) :=
  (newArray source.space).bind (fun b =>
    (copyLoop source.sizeV.toNat source b 0 source.sizeV).map (fun b2 =>
      { sizeV := source.sizeV, space := source.space, elem := a, store := b2 }))

/-- Copy assignment `*this = rhs` for `this != &rhs` (lines 212-238). -/
def copyAssign (this rhs : Vector T) (a : Int) : Except Fault (Vector T) :=
  (if this.sizeV ≠ 0 then
      (newArray rhs.space).bind (fun b =>
        (copyLoop rhs.sizeV.toNat rhs b 0 rhs.sizeV).map (fun b2 =>
          { this with elem := a, store := b2 }))
    else .ok { this with elem := 0, store := [] }).map
    (fun w => { w with sizeV := rhs.sizeV, space := rhs.space })

/-- Copy assignment `*this = *this` (lines 215, 237): the guard skips the body. -/
def copyAssignSelf (this : Vector T) : Vector T := this

/-- Method `reserve` (lines 325-344). -/
def reserve (v : Vector T) (capacity : Int) (a : Int) : Except Fault (Vector T) :=
  if capacity > v.space then
    (newArray capacity).bind (fun array =>
      (copyLoop v.sizeV.toNat v array 0 v.sizeV).map (fun array2 =>
        { v with elem := a, space := capacity, store := array2 }))
  else .ok v

/-- Method `resize` (lines 285-309). -/
def resize [Zero T] (v : Vector T) (size : Int) (value : T) (a : Int) :
    Except Fault (Vector T) :=
  (if size < v.sizeV then
      fillLoop (v.sizeV - (size - 1)).toNat v (size - 1) v.sizeV 0
    else
      ((if size > v.space then v.reserve size a else .ok v)).bind (fun w =>
        fillLoop (size - w.sizeV).toNat w w.sizeV size value)).map
    (fun w => { w with sizeV := size })

/-- The loop `while (ptr2 > ptr) { *ptr2 = *(ptr2 - 1); --ptr2; }` (lines 447-451). -/
def insertShift : Nat → Vector T → Int → Int → Except Fault (Vector T)
  | 0, v, ptr2, ptr => if ptr2 > ptr then .error .outOfFuel else .ok v
  | fuel + 1, v, ptr2, ptr =>
    if ptr2 > ptr then
      (v.load (ptr2 - 1)).bind (fun x =>
        (v.put ptr2 x).bind (fun w => insertShift fuel w (ptr2 - 1) ptr))
    else .ok v

/-- Method `insert` (lines 428-464): the vector afterwards and the returned pointer. -/
def insert (v : Vector T) (ptr : Int) (value : T) (a : Int) :
    Except Fault (Vector T × Int) :=
  if ptr ≥ v.begin ∧ ptr < v.end_ then
    (if v.sizeV = v.space then
        (v.reserve (v.space + 4) a).map (fun w => (w, w.begin + (ptr - v.begin)))
      else .ok (v, ptr)).bind (fun wp =>
        (insertShift (wp.1.end_ - wp.2).toNat wp.1 wp.1.end_ wp.2).bind (fun u =>
          (u.put wp.2 (some value)).map (fun u2 =>
            ({ u2 with sizeV := u2.sizeV + 1 }, wp.2))))
  else .ok (v, 0)

/-- The loop `for (p = ptr; p < end() - 1; ++p) *p = *(p + 1)` (lines 490-493). -/
def eraseShift : Nat → Vector T → Int → Except Fault (Vector T)
  | 0, v, p => if p < v.end_ - 1 then .error .outOfFuel else .ok v
  | fuel + 1, v, p =>
    if p < v.end_ - 1 then
      (v.load (p + 1)).bind (fun x =>
        (v.put p x).bind (fun w => eraseShift fuel w (p + 1)))
    else .ok v

/-- Method `erase` (lines 485-505): the vector afterwards and the returned pointer. -/
def erase [Zero T] (v : Vector T) (ptr : Int) : Except Fault (Vector T × Int) :=
  if ptr ≥ v.begin ∧ ptr < v.end_ then
    (eraseShift (v.end_ - 1 - ptr).toNat v ptr).bind (fun w =>
      let u : Vector T := { w with sizeV := w.sizeV - 1 }
      (u.put u.end_ (some 0)).map (fun u2 => (u2, ptr)))
  else .ok (v, 0)

/-- The live elements: the slots `[0, sizeV)` of the block. -/
def live (v : Vector T) : Block T := v.store.take v.sizeV.toNat

/-- A well-formed vector: `0 <= size <= capacity`, a block of exactly `capacity`
slots, and a non-null block address whenever there are slots. -/
def WellFormed (v : Vector T) : Prop :=
  0 ≤ v.sizeV ∧ v.sizeV ≤ v.space ∧ (v.store.length : Int) = v.space ∧
    0 ≤ v.elem ∧ (v.elem = 0 → v.space = 0)

/-- The loop `for (p = first; p != last; ++p) visit(*p)`: the values read, in
the order they are visited. -/
def visitLoop : Nat → Vector T → Int → Int → Except Fault (List (Option T))
  | 0, _, p, last => if p ≠ last then .error .outOfFuel else .ok []
  | fuel + 1, v, p, last =>
    if p ≠ last then
      (v.load p).bind (fun x => (visitLoop fuel v (p + 1) last).map (fun r => x :: r))
    else .ok []

/-- The traversal of a range-based `for` statement over the vector: from
`begin()` (line 47) up to `end()` (line 49), reading each position. -/
def iterate (v : Vector T) : Except Fault (List (Option T)) :=
  visitLoop (v.end_ - v.begin).toNat v v.begin v.end_

end Vector

/-! ## Reading and writing slots -/

namespace Vector

variable {T : Type}

theorem some_getD (b : Block T) (k : Nat) (h : k < b.length) :
    some (b.getD k none) = b[k]? := by
  simp [List.getD_eq_getElem?_getD, List.getElem?_eq_getElem h]

theorem load_slot (n sp e : Int) (s : Block T) (k : Nat) (he : e ≠ 0)
    (hk : k < s.length) :
    load ⟨n, sp, e, s⟩ (e + k) = .ok (s.getD k none) := by
  have h2 : (k : Int) < (s.length : Int) := by exact_mod_cast hk
  simp [load, he, blockRead, h2]

theorem put_slot (n sp e : Int) (s : Block T) (k : Nat) (x : Option T) (he : e ≠ 0)
    (hk : k < s.length) :
    put ⟨n, sp, e, s⟩ (e + k) x = .ok ⟨n, sp, e, s.set k x⟩ := by
  have h2 : (k : Int) < (s.length : Int) := by exact_mod_cast hk
  simp [put, he, blockWrite, h2, Except.map]

theorem blockRead_slot (b : Block T) (k : Nat) (hk : k < b.length) :
    blockRead b k = .ok (b.getD k none) := by
  have h2 : (k : Int) < (b.length : Int) := by exact_mod_cast hk
  simp [blockRead, h2]

theorem blockWrite_slot (b : Block T) (k : Nat) (x : Option T) (hk : k < b.length) :
    blockWrite b k x = .ok (b.set k x) := by
  have h2 : (k : Int) < (b.length : Int) := by exact_mod_cast hk
  simp [blockWrite, h2]

/-! ## The loops -/

/-- The copy loop started at index `k` with `n - k` units of fuel overwrites the
slots `[k, n)` of `array` with those of the source block and nothing else. -/
theorem copyLoop_spec (fuel : Nat) :
    ∀ (n0 sp e : Int) (s array : Block T) (k n : Nat), (k < n → e ≠ 0) → n ≤ s.length →
      n ≤ array.length → k + fuel = n →
      ∃ array2, copyLoop fuel ⟨n0, sp, e, s⟩ array k n = .ok array2 ∧
        array2.length = array.length ∧
        ∀ j, array2[j]? = if k ≤ j ∧ j < n then s[j]? else array[j]? := by
  induction fuel with
  | zero =>
    intro n0 sp e s array k n _ _ _ hk
    refine ⟨array, ?_, rfl, ?_⟩
    · have : ¬ ((k : Int) < (n : Int)) := by omega
      simp [copyLoop, this]
    · intro j
      have : ¬ (k ≤ j ∧ j < n) := by omega
      simp [this]
  | succ f ih =>
    intro n0 sp e s array k n he0 hs ha hk
    have he : e ≠ 0 := he0 (by omega)
    have hlt : (k : Int) < (n : Int) := by omega
    obtain ⟨array2, h1, h2, h3⟩ :=
      ih n0 sp e s (array.set k (s.getD k none)) (k + 1) n (fun _ => he) hs
        (by simpa using ha) (by omega)
    refine ⟨array2, ?_, ?_, ?_⟩
    · simp only [copyLoop, hlt, if_true]
      rw [load_slot n0 sp e s k he (by omega)]
      simp only [Except.bind]
      rw [blockWrite_slot array k _ (by omega)]
      simp only [Except.bind]
      rw [← h1]
      push_cast
      rfl
    · simpa using h2
    · intro j
      rw [h3 j, List.getElem?_set]
      by_cases hj : k = j
      · subst hj
        have h5 : ¬ (k + 1 ≤ k ∧ k < n) := by omega
        have h6 : k ≤ k ∧ k < n := by omega
        have h7 : k < array.length := by omega
        have h8 : k < s.length := by omega
        rw [if_neg h5, if_pos rfl, if_pos h7, if_pos h6]
        exact some_getD s k h8
      · by_cases hj2 : k + 1 ≤ j ∧ j < n
        · have h6 : k ≤ j ∧ j < n := by omega
          simp [hj2, h6]
        · have h6 : ¬ (k ≤ j ∧ j < n) := by omega
          simp [hj2, h6, hj]

/-- The fill loop started at index `k` with `hi - k` units of fuel writes `x` to
the slots `[k, hi)` and nothing else. -/
theorem fillLoop_spec (fuel : Nat) :
    ∀ (n0 sp e : Int) (s : Block T) (k hi : Nat) (x : T), (k < hi → e ≠ 0) →
      hi ≤ s.length → k + fuel = hi →
      ∃ s2, fillLoop fuel ⟨n0, sp, e, s⟩ k hi x = .ok ⟨n0, sp, e, s2⟩ ∧
        s2.length = s.length ∧
        ∀ j, s2[j]? = if k ≤ j ∧ j < hi then some (some x) else s[j]? := by
  induction fuel with
  | zero =>
    intro n0 sp e s k hi x _ _ hk
    refine ⟨s, ?_, rfl, ?_⟩
    · have : ¬ ((k : Int) < (hi : Int)) := by omega
      simp [fillLoop, this]
    · intro j
      have : ¬ (k ≤ j ∧ j < hi) := by omega
      simp [this]
  | succ f ih =>
    intro n0 sp e s k hi x he0 hs hk
    have he : e ≠ 0 := he0 (by omega)
    have hlt : (k : Int) < (hi : Int) := by omega
    obtain ⟨s2, h1, h2, h3⟩ :=
      ih n0 sp e (s.set k (some x)) (k + 1) hi x (fun _ => he) (by simpa using hs) (by omega)
    refine ⟨s2, ?_, ?_, ?_⟩
    · simp only [fillLoop, hlt, if_true]
      rw [put_slot n0 sp e s k _ he (by omega)]
      simp only [Except.bind]
      rw [← h1]
      push_cast
      rfl
    · simpa using h2
    · intro j
      rw [h3 j, List.getElem?_set]
      by_cases hj : k = j
      · subst hj
        have h5 : ¬ (k + 1 ≤ k ∧ k < hi) := by omega
        have h6 : k ≤ k ∧ k < hi := by omega
        have h7 : k < s.length := by omega
        rw [if_neg h5, if_pos rfl, if_pos h7, if_pos h6]
      · by_cases hj2 : k + 1 ≤ j ∧ j < hi
        · have h6 : k ≤ j ∧ j < hi := by omega
          simp [hj2, h6]
        · have h6 : ¬ (k ≤ j ∧ j < hi) := by omega
          simp [hj2, h6, hj]

/-- The shift loop of `erase`, started at slot `i` of a vector with `N` live
elements, moves each of the slots `(i, N)` one place down and changes nothing
else. -/
theorem eraseShift_spec (fuel : Nat) :
    ∀ (sp e : Int) (s : Block T) (i N : Nat), e ≠ 0 → N ≤ s.length →
      i + fuel + 1 = N →
      ∃ s2, eraseShift fuel ⟨N, sp, e, s⟩ (e + i) = .ok ⟨N, sp, e, s2⟩ ∧
        s2.length = s.length ∧
        ∀ j, s2[j]? = if i ≤ j ∧ j + 1 < N then s[j + 1]? else s[j]? := by
  induction fuel with
  | zero =>
    intro sp e s i N _ _ hk
    refine ⟨s, ?_, rfl, ?_⟩
    · have hN : (N : Int) ≠ 0 := by omega
      have : ¬ (e + (i : Int) < e + (N : Int) - 1) := by omega
      simp only [eraseShift, end_, hN, ne_eq, not_false_eq_true, if_true, this, if_false]
    · intro j
      have : ¬ (i ≤ j ∧ j + 1 < N) := by omega
      simp [this]
  | succ f ih =>
    intro sp e s i N he hs hk
    have hN : (N : Int) ≠ 0 := by omega
    have hlt : e + (i : Int) < e + (N : Int) - 1 := by omega
    have hadd : e + (i : Int) + 1 = e + ((i + 1 : Nat) : Int) := by omega
    obtain ⟨s2, h1, h2, h3⟩ :=
      ih sp e (s.set i (s.getD (i + 1) none)) (i + 1) N he (by simpa using hs) (by omega)
    refine ⟨s2, ?_, ?_, ?_⟩
    · simp only [eraseShift, end_, hN, ne_eq, not_false_eq_true, if_true, hlt]
      rw [hadd, load_slot _ sp e s (i + 1) he (by omega)]
      simp only [Except.bind]
      rw [put_slot _ sp e s i _ he (by omega)]
      simp only [Except.bind]
      exact h1
    · simpa using h2
    · intro j
      rw [h3 j]
      by_cases hj : i + 1 ≤ j ∧ j + 1 < N
      · have h6 : i ≤ j ∧ j + 1 < N := by omega
        have h7 : ¬ (i = j + 1) := by omega
        rw [if_pos hj, if_pos h6, List.getElem?_set, if_neg h7]
      · rw [if_neg hj, List.getElem?_set]
        by_cases hj2 : i = j
        · subst hj2
          have h7 : i < s.length := by omega
          rw [if_pos rfl, if_pos h7]
          by_cases h8 : i + 1 < N
          · have h6 : i ≤ i ∧ i + 1 < N := by omega
            rw [if_pos h6]
            exact some_getD s (i + 1) (by omega)
          · omega
        · have h6 : ¬ (i ≤ j ∧ j + 1 < N) := by omega
          rw [if_neg hj2, if_neg h6]

/-! ## Results of `Except` computations -/

/-- C9: `insert` at a position outside `[begin(), end())` returns the null
pointer and leaves the whole state (size, capacity, every storage slot) as it
was; `end()` is always such a position, and so is `begin()` of an empty
vector, where `begin()` and `end()` are both null. -/
theorem insert_invalid_position (v : Vector T) (p : Int) (x : T) (a : Int)
    (hp : ¬ (v.begin ≤ p ∧ p < v.end_)) :
    v.insert p x a = .ok (v, 0) ∧ v.insert v.end_ x a = .ok (v, 0) ∧
      (v.sizeV = 0 →
        v.begin = 0 ∧ v.end_ = 0 ∧ v.insert v.begin x a = .ok (v, 0)) := by
  refine ⟨?_, ?_, ?_⟩
  · simp only [insert, ge_iff_le, hp, if_false]
  · simp [insert]
  · intro h0
    simp [insert, begin, end_, h0]

theorem insert_invalid_position_witness :
    ¬ ((⟨3, 3, 100, [some 10, some 20, some 30]⟩ : Vector Int).begin ≤ 103 ∧
        103 < (⟨3, 3, 100, [some 10, some 20, some 30]⟩ : Vector Int).end_) ∧
      (⟨3, 3, 100, [some 10, some 20, some 30]⟩ : Vector Int).insert 103 99 200 =
        .ok (⟨3, 3, 100, [some 10, some 20, some 30]⟩, 0) :=
  ⟨by decide, (insert_invalid_position _ 103 99 200 (by decide)).1⟩

/-- C10: `erase` at a position outside `[begin(), end())` returns the null
pointer and leaves the whole state (size, capacity, every storage slot) as it
was; `end()` is always such a position, and so is `begin()` of an empty
vector. -/
theorem erase_invalid_position [Zero T] (v : Vector T) (p : Int)
    (hp : ¬ (v.begin ≤ p ∧ p < v.end_)) :
    v.erase p = .ok (v, 0) ∧ v.erase v.end_ = .ok (v, 0) ∧
      (v.sizeV = 0 → v.begin = 0 ∧ v.end_ = 0 ∧ v.erase v.begin = .ok (v, 0)) := by
  refine ⟨?_, ?_, ?_⟩
  · simp only [erase, ge_iff_le, hp, if_false]
  · simp [erase]
  · intro h0
    simp [erase, begin, end_, h0]

theorem erase_invalid_position_witness :
    ¬ ((⟨3, 3, 100, [some 10, some 20, some 30]⟩ : Vector Int).begin ≤ 103 ∧
        103 < (⟨3, 3, 100, [some 10, some 20, some 30]⟩ : Vector Int).end_) ∧
      (⟨3, 3, 100, [some 10, some 20, some 30]⟩ : Vector Int).erase 103 =
        .ok (⟨3, 3, 100, [some 10, some 20, some 30]⟩, 0) :=
  ⟨by decide, (erase_invalid_position _ 103 (by decide)).1⟩

/-! ## Defects of `erase` and `resize` -/

/-- C4: on a well-formed vector with exactly one live element `erase(begin())`
passes the position check, decrements `sizeV` to 0 and then writes through
`end()`, which is the null pointer once `sizeV` is 0: the call does not
complete, it writes outside the storage of the vector. -/
theorem erase_single_element_faults [Zero T] (v : Vector T) (hwf : v.WellFormed)
    (h1 : v.sizeV = 1) : v.erase v.begin = .error .outOfBounds := by
  obtain ⟨_, hle, _, he0, he⟩ := hwf
  have hne : v.elem ≠ 0 := fun h => by have := he h; omega
  have hneg : ¬ (0 ≤ -v.elem) := by omega
  simp [erase, begin, end_, h1, eraseShift, put, hne, blockWrite, hneg, Except.bind,
    Except.map]

theorem erase_single_element_faults_witness :
    (⟨1, 1, 100, [some 10]⟩ : Vector Int).WellFormed ∧
      (⟨1, 1, 100, [some 10]⟩ : Vector Int).sizeV = 1 ∧
      (⟨1, 1, 100, [some 10]⟩ : Vector Int).erase
        (⟨1, 1, 100, [some 10]⟩ : Vector Int).begin = .error .outOfBounds :=
  ⟨by simp [WellFormed], rfl,
    erase_single_element_faults _ (by simp [WellFormed]) rfl⟩

/-- C5: `resize(1)` on `[10,20,30]` starts clearing at index `size - 1 = 0`, so
the one element that is kept is overwritten: the live content afterwards is
`[0]`, not `[10]`. -/
theorem resize_shrink_clears_last_kept :
    (⟨3, 3, 100, [some 10, some 20, some 30]⟩ : Vector Int).resize 1 0 200 =
        .ok ⟨1, 3, 100, [some 0, some 0, some 0]⟩ ∧
      (⟨1, 3, 100, [some 0, some 0, some 0]⟩ : Vector Int).live = [some 0] ∧
      (⟨1, 3, 100, [some 0, some 0, some 0]⟩ : Vector Int).live ≠
        ([10, 20, 30].take 1).map some := by
  refine ⟨by rfl, by rfl, by decide⟩

/-- C6: `resize(0)` on a vector with at least one live element starts clearing
at index `0 - 1`: its first write is to `elem[-1]`, outside the storage, and the
call does not complete. -/
theorem resize_zero_faults [Zero T] (v : Vector T) (x : T) (a : Int)
    (hpos : 0 < v.sizeV) : v.resize 0 x a = .error .outOfBounds := by
  obtain ⟨f, hf⟩ : ∃ f, (v.sizeV - (0 - 1)).toNat = f + 1 := ⟨v.sizeV.toNat, by omega⟩
  have hlt : (0 : Int) - 1 < v.sizeV := by omega
  simp only [resize, hpos, if_true, hf, fillLoop, hlt, put]
  by_cases he : v.elem = 0
  · simp [he, Except.bind, Except.map]
  · simp [he, blockWrite, Except.bind, Except.map]

theorem resize_zero_faults_witness :
    0 < (⟨3, 3, 100, [some 10, some 20, some 30]⟩ : Vector Int).sizeV ∧
      (⟨3, 3, 100, [some 10, some 20, some 30]⟩ : Vector Int).resize 0 0 200 =
        .error .outOfBounds :=
  ⟨by decide, resize_zero_faults _ 0 200 (by decide)⟩

/-! ## Move assignment -/

/-- A growing `reserve` moves the live elements, in order, to the front of a new
block of exactly `cap` slots at the address the allocator returned. -/
theorem reserve_grow (N : Nat) (sp e cap a : Int) (s : Block T) (hN : N ≤ s.length)
    (he : 0 < N → e ≠ 0) (hc : sp < cap) (hcap : (N : Int) ≤ cap) :
    reserve ⟨N, sp, e, s⟩ cap a =
      .ok ⟨N, cap, a, s.take N ++ List.replicate (cap.toNat - N) none⟩ := by
  have hneg : ¬ (cap < 0) := by omega
  obtain ⟨arr2, h1, h2, h3⟩ :=
    copyLoop_spec N N sp e s (List.replicate cap.toNat none) 0 N (fun h => he h) hN
      (by simp; omega) (by omega)
  have harr : arr2 = s.take N ++ List.replicate (cap.toNat - N) none := by
    apply List.ext_getElem?
    intro j
    rw [h3 j, List.getElem?_append, List.getElem?_take, List.getElem?_replicate,
      List.getElem?_replicate]
    have hl : (s.take N).length = N := by simp; omega
    rw [hl]
    by_cases h4 : j < N
    · have h5 : 0 ≤ j ∧ j < N := by omega
      simp [h4, h5]
    · have h5 : ¬ (0 ≤ j ∧ j < N) := by omega
      by_cases h6 : j < cap.toNat
      · have h7 : j - N < cap.toNat - N := by omega
        simp [h4, h5, h6, h7]
      · have h7 : ¬ (j - N < cap.toNat - N) := by omega
        simp [h4, h5, h6, h7]
  simp only [reserve, gt_iff_lt, hc, if_true, newArray, hneg, if_false, Except.bind,
    Int.toNat_ofNat]
  simp only [Nat.cast_zero] at h1
  rw [h1, ← harr]
  rfl

/-- The call `reserve(cap)` on a well-formed vector succeeds, keeps it
well-formed, keeps size and live elements, and leaves `max(capacity, cap)` as
capacity. -/
theorem reserve_wf (v : Vector T) (cap a : Int) (hwf : v.WellFormed) (ha : 0 < a) :
    ∃ w, v.reserve cap a = .ok w ∧ w.WellFormed ∧ w.live = v.live ∧
      w.sizeV = v.sizeV ∧ w.space = max v.space cap ∧
      w.elem = (if cap > v.space then a else v.elem) := by
  obtain ⟨n, sp, e, s⟩ := v
  obtain ⟨h0, hle, hlen, he0, he⟩ := hwf
  simp only at h0 hle hlen he0 he
  by_cases hc : cap > sp
  · lift n to ℕ using h0
    have hN : n ≤ s.length := by omega
    refine ⟨_, reserve_grow n sp e cap a s hN (fun h => ?_) hc (by omega), ?_, ?_, rfl, ?_, ?_⟩
    · intro h2
      have := he h2
      omega
    · refine ⟨by simp, by simp; omega, ?_, by simp; omega, ?_⟩
      · simp only [List.length_append, List.length_take, List.length_replicate]
        omega
      · simp only
        intro h2
        omega
    · simp only [live, Int.toNat_ofNat]
      rw [List.take_append_of_le_length (by simp; omega)]
      simp
    · simp only
      omega
    · simp [hc]
  · refine ⟨⟨n, sp, e, s⟩, ?_, ⟨h0, hle, hlen, he0, he⟩, rfl, rfl, ?_, ?_⟩
    · simp [reserve, hc]
    · simp only
      omega
    · simp [hc]

/-! ## `push_back` -/

/-- Indexed access to a live slot of a well-formed vector reads that slot. -/
theorem get_live (v : Vector T) (i : Nat) (hwf : v.WellFormed) (hi : (i : Int) < v.sizeV) :
    v.get i = .ok (v.live.getD i none) := by
  obtain ⟨n, sp, e, s⟩ := v
  obtain ⟨h0, hle, hlen, he0, he⟩ := hwf
  simp only at h0 hle hlen he0 he hi
  have hne : e ≠ 0 := fun h => by have := he h; omega
  have hs : i < s.length := by omega
  have hn : i < n.toNat := by omega
  simp only [get, live]
  rw [load_slot n sp e s i hne hs]
  simp [List.getElem?_take, hn]

/-- The call `erase(begin() + i)` on a well-formed vector with at least two live
elements, `i` a live index: the element is removed in place, the vacated slot
is cleared, the capacity and the block stay. -/
theorem erase_wf [Zero T] (v : Vector T) (i : Nat) (hwf : v.WellFormed)
    (h2 : 2 ≤ v.sizeV) (hi : (i : Int) < v.sizeV) :
    ∃ w, v.erase (v.begin + i) = .ok (w, v.begin + i) ∧ w.WellFormed ∧
      w.live = v.live.eraseIdx i ∧ w.sizeV = v.sizeV - 1 ∧ w.space = v.space ∧
      w.elem = v.elem ∧ w.store.length = v.store.length ∧
      w.store.getD (v.sizeV - 1).toNat none = some 0 := by
  obtain ⟨n, sp, e, s⟩ := v
  obtain ⟨h0, hle, hlen, he0, he⟩ := hwf
  simp only at h0 hle hlen he0 he h2 hi
  lift n to ℕ using h0
  have hne : e ≠ 0 := fun h => by have := he h; omega
  have hn0 : (n : Int) ≠ 0 := by omega
  have hn1 : (n : Int) - 1 ≠ 0 := by omega
  have hcast : (n : Int) - 1 = ((n - 1 : Nat) : Int) := by omega
  have hguard : e + 0 + (i : Int) ≥ e + 0 ∧ e + 0 + (i : Int) < e + (n : Int) := by omega
  have hptr : e + 0 + (i : Int) = e + (i : Int) := by omega
  have hfuel : (e + (n : Int) - 1 - (e + (i : Int))).toNat = n - 1 - i := by omega
  obtain ⟨s2, hs1, hs2, hs3⟩ :=
    eraseShift_spec (n - 1 - i) sp e s i n hne (by omega) (by omega)
  refine ⟨⟨(n : Int) - 1, sp, e, s2.set (n - 1) (some 0)⟩, ?_, ?_, ?_, rfl, rfl, rfl, ?_, ?_⟩
  · simp only [erase, begin, end_, hn0, ne_eq, not_false_eq_true, if_true, hguard, and_self,
      hptr, hfuel, hs1, Except.bind, hn1]
    rw [hcast, put_slot _ sp e s2 (n - 1) _ hne (by omega), if_pos (by omega)]
    rfl
  · refine ⟨by simp only; omega, by simp only; omega, ?_, he0, he⟩
    simp only [List.length_set, hs2]
    exact hlen
  · apply List.ext_getElem?
    intro j
    have h1 : ((n : Int) - 1).toNat = n - 1 := by omega
    simp only [live, h1, Int.toNat_ofNat]
    rw [List.getElem?_take, List.getElem?_set, hs3 j, List.getElem?_eraseIdx,
      List.getElem?_take, List.getElem?_take]
    by_cases hj : j < n - 1
    · have h3 : ¬ (n - 1 = j) := by omega
      have h4 : j < n := by omega
      have h5 : j + 1 < n := by omega
      rw [if_pos hj, if_neg h3, if_pos h4, if_pos h5]
      by_cases h6 : j < i
      · have h7 : ¬ (i ≤ j ∧ j + 1 < n) := by omega
        rw [if_pos h6, if_neg h7]
      · have h7 : i ≤ j ∧ j + 1 < n := by omega
        rw [if_neg h6, if_pos h7]
    · have h5 : ¬ (j + 1 < n) := by omega
      rw [if_neg hj, if_neg h5]
      by_cases h6 : j < i
      · omega
      · rw [if_neg h6]
  · simp [hs2]
  · have h1 : ((n : Int) - 1).toNat = n - 1 := by omega
    have h3 : n - 1 < s2.length := by omega
    simp only [h1, List.getD_eq_getElem?_getD, List.getElem?_set, if_true, h3]
    rfl

theorem map_some_eraseIdx (xs : List T) (i : Nat) :
    (xs.map some).eraseIdx i = (xs.eraseIdx i).map some := by
  apply List.ext_getElem?
  intro j
  simp only [List.getElem?_eraseIdx, List.getElem?_map]
  split <;> rfl

/-- C3: on a well-formed vector with at least two live elements and live
content `xs`, `erase(begin() + i)` for a live index `i` succeeds; afterwards the
live content is `xs` without its element at index `i`, `size()` is one less,
`capacity()` is unchanged, and the returned position is the same position
`begin() + i` of the same block: it now reads the element that followed, or is
`end()` when `i` was the last index. -/
theorem erase_removes_element [Zero T] (v : Vector T) (xs : List T) (i : Nat)
    (hwf : v.WellFormed) (hxs : v.live = xs.map some) (h2 : 2 ≤ v.size)
    (hi : (i : Int) < v.size) :
    ∃ w, v.erase (v.begin + i) = .ok (w, w.begin + i) ∧
      w.live = (xs.eraseIdx i).map some ∧ w.size = v.size - 1 ∧
      w.capacity = v.capacity ∧ w.begin = v.begin ∧
      ((i : Int) + 1 < v.size → w.load (w.begin + i) = .ok (xs[i + 1]?)) ∧
      ((i : Int) + 1 = v.size → w.begin + i = w.end_) := by
  obtain ⟨w, hw1, hw2, hw3, hw4, hw5, hw6, _, _⟩ := erase_wf v i hwf h2 hi
  have hb : w.begin = v.begin := by
    have h3 : w.sizeV ≠ 0 := by rw [hw4]; simp only [size] at h2; omega
    have h4 : v.sizeV ≠ 0 := by simp only [size] at h2; omega
    simp [begin, h3, h4, hw6]
  have hlive : w.live = (xs.eraseIdx i).map some := by
    rw [hw3, hxs, map_some_eraseIdx]
  refine ⟨w, by rw [hb]; exact hw1, hlive, hw4, hw5, hb, ?_, ?_⟩
  · intro hnext
    have h3 : w.sizeV ≠ 0 := by rw [hw4]; simp only [size] at h2; omega
    have h5 : (i : Int) < w.sizeV := by rw [hw4]; simp only [size] at hnext; omega
    have h6 := get_live w i hw2 h5
    simp only [get] at h6
    simp only [begin, h3, ne_eq, not_false_eq_true, if_true, add_zero]
    rw [h6, hlive]
    simp only [List.getD_eq_getElem?_getD, List.getElem?_map, List.getElem?_eraseIdx,
      lt_self_iff_false, if_false]
    cases xs[i + 1]? <;> rfl
  · intro hlast
    have h3 : w.sizeV ≠ 0 := by rw [hw4]; simp only [size] at h2; omega
    simp only [begin, end_, h3, ne_eq, not_false_eq_true, if_true, hw4]
    simp only [size] at hlast
    omega

theorem erase_removes_element_witness :
    (⟨3, 3, 100, [some 10, some 20, some 30]⟩ : Vector Int).WellFormed ∧
      (⟨3, 3, 100, [some 10, some 20, some 30]⟩ : Vector Int).live =
        ([10, 20, 30] : List Int).map some ∧
      2 ≤ (⟨3, 3, 100, [some 10, some 20, some 30]⟩ : Vector Int).size ∧
      ((1 : Nat) : Int) < (⟨3, 3, 100, [some 10, some 20, some 30]⟩ : Vector Int).size ∧
      ∃ w, (⟨3, 3, 100, [some 10, some 20, some 30]⟩ : Vector Int).erase
            ((⟨3, 3, 100, [some 10, some 20, some 30]⟩ : Vector Int).begin + (1 : Nat)) =
          .ok (w, w.begin + (1 : Nat)) ∧
        w.live = (([10, 20, 30] : List Int).eraseIdx 1).map some ∧
        w.size = (⟨3, 3, 100, [some 10, some 20, some 30]⟩ : Vector Int).size - 1 ∧
        w.capacity = (⟨3, 3, 100, [some 10, some 20, some 30]⟩ : Vector Int).capacity ∧
        w.begin = (⟨3, 3, 100, [some 10, some 20, some 30]⟩ : Vector Int).begin ∧
        ((((1 : Nat) : Int) + 1 <
            (⟨3, 3, 100, [some 10, some 20, some 30]⟩ : Vector Int).size) →
          w.load (w.begin + (1 : Nat)) = .ok (([10, 20, 30] : List Int)[1 + 1]?)) ∧
        ((((1 : Nat) : Int) + 1 =
            (⟨3, 3, 100, [some 10, some 20, some 30]⟩ : Vector Int).size) →
          w.begin + (1 : Nat) = w.end_) :=
  ⟨by simp [WellFormed], by rfl, by decide, by decide,
    erase_removes_element _ [10, 20, 30] 1 (by simp [WellFormed]) (by rfl) (by decide)
      (by decide)⟩

/-! ## `insert` -/

/-- C12: on a well-formed vector, `reserve(n)` with `n > capacity()` leaves
`capacity() == n`, keeps `size()` and keeps every live element `v[i]`, in the
same order, in a block of exactly `n` slots; `reserve(n)` with
`n <= capacity()` leaves the whole state (size, capacity, storage) as it was. -/
theorem reserve_frame (v : Vector T) (n a : Int) (hwf : v.WellFormed) (ha : 0 < a) :
    (n > v.capacity →
      ∃ w, v.reserve n a = .ok w ∧ w.capacity = n ∧ w.size = v.size ∧
        w.live = v.live ∧ (w.store.length : Int) = n ∧
        ∀ i : Nat, (i : Int) < v.size → w.get i = v.get i) ∧
    (n ≤ v.capacity → v.reserve n a = .ok v) := by
  constructor
  · intro hn
    simp only [capacity] at hn
    obtain ⟨w, hw1, hw2, hw3, hw4, hw5, _⟩ := reserve_wf v n a hwf ha
    have hsp : w.space = n := by rw [hw5]; omega
    refine ⟨w, hw1, hsp, hw4, hw3, ?_, ?_⟩
    · rw [hw2.2.2.1, hsp]
    · intro i hi
      simp only [size] at hi
      rw [get_live w i hw2 (by rw [hw4]; exact hi), get_live v i hwf hi, hw3]
  · intro hn
    simp only [capacity] at hn
    have h1 : ¬ (n > v.space) := by omega
    simp only [reserve, h1, if_false]

theorem reserve_frame_witness :
    (⟨3, 3, 100, [some 10, some 20, some 30]⟩ : Vector Int).WellFormed ∧ (0 : Int) < 200 ∧
      ((5 : Int) > (⟨3, 3, 100, [some 10, some 20, some 30]⟩ : Vector Int).capacity →
        ∃ w, (⟨3, 3, 100, [some 10, some 20, some 30]⟩ : Vector Int).reserve 5 200 = .ok w ∧
          w.capacity = 5 ∧
          w.size = (⟨3, 3, 100, [some 10, some 20, some 30]⟩ : Vector Int).size ∧
          w.live = (⟨3, 3, 100, [some 10, some 20, some 30]⟩ : Vector Int).live ∧
          (w.store.length : Int) = 5 ∧
          ∀ i : Nat, (i : Int) < (⟨3, 3, 100, [some 10, some 20, some 30]⟩ : Vector Int).size →
            w.get i = (⟨3, 3, 100, [some 10, some 20, some 30]⟩ : Vector Int).get i) ∧
      ((5 : Int) ≤ (⟨3, 3, 100, [some 10, some 20, some 30]⟩ : Vector Int).capacity →
        (⟨3, 3, 100, [some 10, some 20, some 30]⟩ : Vector Int).reserve 5 200 =
          .ok ⟨3, 3, 100, [some 10, some 20, some 30]⟩) :=
  ⟨by simp [WellFormed], by decide,
    reserve_frame _ 5 200 (by simp [WellFormed]) (by decide)⟩

/-! ## `resize` -/

/-- The shrinking branch of `resize` on a well-formed vector, for a new size of
at least 1: the slots `[n - 1, size)` are overwritten with 0, nothing else
changes but `sizeV`. -/
theorem resize_shrink_wf [Zero T] (v : Vector T) (n : Nat) (x : T) (a : Int)
    (hwf : v.WellFormed) (h1 : 1 ≤ n) (hlt : (n : Int) < v.sizeV) :
    ∃ w, v.resize n x a = .ok w ∧ w.sizeV = n ∧ w.space = v.space ∧ w.elem = v.elem ∧
      w.store.length = v.store.length ∧
      ∀ j : Nat, w.store[j]? =
        if n - 1 ≤ j ∧ (j : Int) < v.sizeV then some (some 0) else v.store[j]? := by
  obtain ⟨N, sp, e, s⟩ := v
  obtain ⟨h0, hle, hlen, he0, he⟩ := hwf
  simp only at h0 hle hlen he0 he hlt
  lift N to ℕ using h0
  have hne : e ≠ 0 := fun h => by have := he h; omega
  obtain ⟨s2, hs1, hs2, hs3⟩ :=
    fillLoop_spec (N - (n - 1)) N sp e s (n - 1) N (0 : T) (fun _ => hne) (by omega)
      (by omega)
  have hfuel : ((N : Int) - ((n : Int) - 1)).toNat = N - (n - 1) := by omega
  have hcast : (n : Int) - 1 = ((n - 1 : Nat) : Int) := by omega
  refine ⟨⟨n, sp, e, s2⟩, ?_, rfl, rfl, rfl, hs2, ?_⟩
  · simp only [resize, hlt, if_true, hfuel]
    rw [hcast, hs1]
    rfl
  · intro j
    rw [hs3 j]
    by_cases h3 : n - 1 ≤ j ∧ j < N
    · have h4 : n - 1 ≤ j ∧ (j : Int) < (N : Int) := by omega
      rw [if_pos h3, if_pos h4]
    · have h4 : ¬ (n - 1 ≤ j ∧ (j : Int) < (N : Int)) := by omega
      rw [if_neg h3, if_neg h4]

/-- C14: copy assignment `b = a` into a distinct target `b` with
`b.size() == 0` takes the branch that only sets `elem = nullptr`: afterwards the
target has a null element pointer and no block, while `b.size() == a.size()`
and `b.capacity() == a.capacity()`.  The source is a `const` reference that the
function only reads. -/
theorem copyAssign_empty_target (a b : Vector T) (addr : Int) (hb : b.size = 0) :
    ∃ w, b.copyAssign a addr = .ok w ∧ w.elem = 0 ∧ w.store = [] ∧
      w.size = a.size ∧ w.capacity = a.capacity := by
  simp only [size] at hb
  refine ⟨⟨a.sizeV, a.space, 0, []⟩, ?_, rfl, rfl, rfl, rfl⟩
  simp only [copyAssign, hb, ne_eq, not_true_eq_false, if_false]
  rfl

theorem copyAssign_empty_target_witness :
    ofFill 3 (7 : Int) 100 = .ok ⟨3, 3, 100, [some 7, some 7, some 7]⟩ ∧
      (default : Vector Int).size = 0 ∧
      ∃ w, (default : Vector Int).copyAssign ⟨3, 3, 100, [some 7, some 7, some 7]⟩ 200 = .ok w ∧
        w.elem = 0 ∧ w.store = [] ∧
        w.size = (⟨3, 3, 100, [some 7, some 7, some 7]⟩ : Vector Int).size ∧
        w.capacity = (⟨3, 3, 100, [some 7, some 7, some 7]⟩ : Vector Int).capacity :=
  ⟨by rfl, by rfl, copyAssign_empty_target _ default 200 (by rfl)⟩

/-- The copy loop into a fresh block of `c` slots copies the `N` live elements
of the source to its front. -/
theorem copyLoop_fresh (N c : Nat) (n0 sp e : Int) (s : Block T) (hN : N ≤ s.length)
    (he : 0 < N → e ≠ 0) (hc : N ≤ c) :
    copyLoop N ⟨n0, sp, e, s⟩ (List.replicate c none) 0 N =
      .ok (s.take N ++ List.replicate (c - N) none) := by
  obtain ⟨arr2, h1, _, h3⟩ :=
    copyLoop_spec N n0 sp e s (List.replicate c none) 0 N (fun h => he h) hN
      (by simp; omega) (by omega)
  have harr : arr2 = s.take N ++ List.replicate (c - N) none := by
    apply List.ext_getElem?
    intro j
    rw [h3 j, List.getElem?_append, List.getElem?_take, List.getElem?_replicate,
      List.getElem?_replicate]
    have hl : (s.take N).length = N := by simp; omega
    rw [hl]
    by_cases h4 : j < N
    · have h5 : 0 ≤ j ∧ j < N := by omega
      simp [h4, h5]
    · have h5 : ¬ (0 ≤ j ∧ j < N) := by omega
      by_cases h6 : j < c
      · have h7 : j - N < c - N := by omega
        simp [h4, h5, h6, h7]
      · have h7 : ¬ (j - N < c - N) := by omega
        simp [h4, h5, h6, h7]
  simp only [Nat.cast_zero] at h1
  rw [h1, harr]

/-- A vector with the members of the well-formed `src`, a block at the address
`a` and the live elements of `src` at the front of that block is a deep copy. -/
theorem copied_state_wf (src : Vector T) (N : Nat) (a : Int) (hwf : src.WellFormed)
    (hN : src.sizeV = N) (ha : 0 < a) :
    (⟨src.sizeV, src.space, a,
        src.store.take N ++ List.replicate (src.space.toNat - N) none⟩ : Vector T).WellFormed ∧
      (⟨src.sizeV, src.space, a,
        src.store.take N ++ List.replicate (src.space.toNat - N) none⟩ : Vector T).live =
        src.live := by
  obtain ⟨h0, hle, hlen, _, _⟩ := hwf
  constructor
  · refine ⟨h0, hle, ?_, by simp only; omega, ?_⟩
    · simp only [List.length_append, List.length_take, List.length_replicate]
      omega
    · simp only
      intro h
      omega
  · simp only [live, hN, Int.toNat_ofNat]
    rw [List.take_append_of_le_length (by simp; omega)]
    simp

/-- C15: for a well-formed source `a`, the copy constructor and the copy
assignment into a distinct target with `size() > 0` both succeed and produce a
well-formed vector with `size() == a.size()`, `capacity() == a.capacity()`, a
block of `capacity()` slots and the live elements of `a`, element by element;
the source is a `const` reference that is only read; self-assignment leaves
the object as it is. -/
theorem deep_copy (src b : Vector T) (a : Int) (hwf : src.WellFormed) (ha : 0 < a)
    (hb : 0 < b.size) :
    (∃ w, src.copy a = .ok w ∧ w.size = src.size ∧ w.capacity = src.capacity ∧
        (w.store.length : Int) = w.capacity ∧ w.live = src.live ∧
        ∀ i : Nat, (i : Int) < src.size → w.get i = src.get i) ∧
      (∃ w, b.copyAssign src a = .ok w ∧ w.size = src.size ∧ w.capacity = src.capacity ∧
        (w.store.length : Int) = w.capacity ∧ w.live = src.live ∧
        ∀ i : Nat, (i : Int) < src.size → w.get i = src.get i) ∧
      src.copyAssignSelf = src := by
  obtain ⟨n, sp, e, s⟩ := src
  have hwf2 := hwf
  obtain ⟨h0, hle, hlen, he0, he⟩ := hwf
  simp only at h0 hle hlen he0 he
  lift n to ℕ using h0
  have hsp : ¬ (sp < 0) := by omega
  have hloop :
      copyLoop ((n : Int)).toNat ⟨n, sp, e, s⟩ (List.replicate sp.toNat none) 0 (n : Int) =
        .ok (s.take n ++ List.replicate (sp.toNat - n) none) := by
    rw [Int.toNat_ofNat]
    exact copyLoop_fresh n sp.toNat n sp e s (by omega)
      (fun h => fun h2 => by have := he h2; omega) (by omega)
  obtain ⟨hw, hl⟩ := copied_state_wf ⟨n, sp, e, s⟩ n a hwf2 rfl ha
  have hget : ∀ i : Nat, (i : Int) < (⟨n, sp, e, s⟩ : Vector T).size →
      (⟨n, sp, a, s.take n ++ List.replicate (sp.toNat - n) none⟩ : Vector T).get i =
        (⟨n, sp, e, s⟩ : Vector T).get i := by
    intro i hi
    simp only [size] at hi
    rw [get_live _ i hw hi, get_live _ i hwf2 hi, hl]
  refine ⟨⟨⟨n, sp, a, s.take n ++ List.replicate (sp.toNat - n) none⟩, ?_, rfl, rfl,
      hw.2.2.1, hl, hget⟩,
    ⟨⟨n, sp, a, s.take n ++ List.replicate (sp.toNat - n) none⟩, ?_, rfl, rfl,
      hw.2.2.1, hl, hget⟩, rfl⟩
  · simp only [copy, newArray, hsp, if_false, Except.bind, hloop]
    rfl
  · have hb2 : b.sizeV ≠ 0 := by simp only [size] at hb; omega
    simp only [copyAssign, hb2, ne_eq, not_false_eq_true, if_true, newArray, hsp, if_false,
      Except.bind, hloop]
    rfl

theorem deep_copy_witness :
    (⟨2, 3, 100, [some 10, some 20, none]⟩ : Vector Int).WellFormed ∧ (0 : Int) < 200 ∧
      0 < (⟨1, 1, 300, [some 5]⟩ : Vector Int).size ∧
      (∃ w, (⟨2, 3, 100, [some 10, some 20, none]⟩ : Vector Int).copy 200 = .ok w ∧
          w.size = (⟨2, 3, 100, [some 10, some 20, none]⟩ : Vector Int).size ∧
          w.capacity = (⟨2, 3, 100, [some 10, some 20, none]⟩ : Vector Int).capacity ∧
          (w.store.length : Int) = w.capacity ∧
          w.live = (⟨2, 3, 100, [some 10, some 20, none]⟩ : Vector Int).live ∧
          ∀ i : Nat, (i : Int) < (⟨2, 3, 100, [some 10, some 20, none]⟩ : Vector Int).size →
            w.get i = (⟨2, 3, 100, [some 10, some 20, none]⟩ : Vector Int).get i) ∧
        (∃ w, (⟨1, 1, 300, [some 5]⟩ : Vector Int).copyAssign
              ⟨2, 3, 100, [some 10, some 20, none]⟩ 200 = .ok w ∧
          w.size = (⟨2, 3, 100, [some 10, some 20, none]⟩ : Vector Int).size ∧
          w.capacity = (⟨2, 3, 100, [some 10, some 20, none]⟩ : Vector Int).capacity ∧
          (w.store.length : Int) = w.capacity ∧
          w.live = (⟨2, 3, 100, [some 10, some 20, none]⟩ : Vector Int).live ∧
          ∀ i : Nat, (i : Int) < (⟨2, 3, 100, [some 10, some 20, none]⟩ : Vector Int).size →
            w.get i = (⟨2, 3, 100, [some 10, some 20, none]⟩ : Vector Int).get i) ∧
        (⟨2, 3, 100, [some 10, some 20, none]⟩ : Vector Int).copyAssignSelf =
          ⟨2, 3, 100, [some 10, some 20, none]⟩ :=
  ⟨by simp [WellFormed], by decide, by decide,
    deep_copy _ ⟨1, 1, 300, [some 5]⟩ 200 (by simp [WellFormed]) (by decide) (by decide)⟩

/-! ## Positions in the live range -/

/-- A position in `[begin(), end())` is `begin() + i` for a live index `i`. -/
theorem valid_position (v : Vector T) (p : Int) (hp : v.begin ≤ p ∧ p < v.end_) :
    ∃ i : Nat, p = v.begin + i ∧ (i : Int) < v.sizeV ∧ v.sizeV ≠ 0 := by
  by_cases hz : v.sizeV = 0
  · simp only [begin, end_, hz, ne_eq, not_true_eq_false, if_false] at hp
    omega
  · simp only [begin, end_, hz, ne_eq, not_false_eq_true, if_true] at hp
    refine ⟨(p - v.elem).toNat, ?_, ?_, hz⟩
    · simp only [begin, hz, ne_eq, not_false_eq_true, if_true]
      omega
    · omega

/-- C18: on a well-formed vector, an accepted `erase` on a vector with at least
two live elements, and `resize(n)` with `1 <= n < size`, succeed and leave the
value 0 in every storage slot with index in `[new size, old size)`. -/
theorem eager_clear_on_shrink [Zero T] (v : Vector T) (a : Int) (hwf : v.WellFormed) :
    (∀ p : Int, 2 ≤ v.size → (v.begin ≤ p ∧ p < v.end_) →
        ∃ w q, v.erase p = .ok (w, q) ∧ w.size = v.size - 1 ∧
          ∀ j : Nat, w.size ≤ j → (j : Int) < v.size → w.store[j]? = some (some 0)) ∧
      (∀ (n : Int) (x : T), 1 ≤ n → n < v.size →
        ∃ w, v.resize n x a = .ok w ∧ w.size = n ∧
          ∀ j : Nat, w.size ≤ j → (j : Int) < v.size → w.store[j]? = some (some 0)) := by
  simp only [size]
  constructor
  · intro p h2 hp
    obtain ⟨i, hi1, hi2, _⟩ := valid_position v p hp
    obtain ⟨w, hw1, _, _, hw4, _, _, hw7, hw8⟩ := erase_wf v i hwf h2 hi2
    refine ⟨w, v.begin + i, by rw [hi1]; exact hw1, hw4, ?_⟩
    intro j hj1 hj2
    have hj : j = (v.sizeV - 1).toNat := by omega
    have hlen : j < w.store.length := by
      rw [hw7]
      have := hwf.2.1
      have := hwf.2.2.1
      omega
    rw [← some_getD w.store j hlen, hj, hw8]
  · intro n x h1 hlt
    lift n to ℕ using (by omega)
    obtain ⟨w, hw1, hw2, _, _, _, hw6⟩ := resize_shrink_wf v n x a hwf (by omega) hlt
    refine ⟨w, hw1, hw2, ?_⟩
    intro j hj1 hj2
    have h3 : n - 1 ≤ j ∧ (j : Int) < v.sizeV := by omega
    rw [hw6 j, if_pos h3]

theorem eager_clear_on_shrink_witness :
    (⟨3, 3, 100, [some 10, some 20, some 30]⟩ : Vector Int).WellFormed ∧
      (∃ w q, (⟨3, 3, 100, [some 10, some 20, some 30]⟩ : Vector Int).erase 101 = .ok (w, q) ∧
        w.size = (⟨3, 3, 100, [some 10, some 20, some 30]⟩ : Vector Int).size - 1 ∧
        ∀ j : Nat, w.size ≤ j →
          (j : Int) < (⟨3, 3, 100, [some 10, some 20, some 30]⟩ : Vector Int).size →
          w.store[j]? = some (some 0)) ∧
      (∃ w, (⟨3, 3, 100, [some 10, some 20, some 30]⟩ : Vector Int).resize 2 0 200 = .ok w ∧
        w.size = 2 ∧
        ∀ j : Nat, w.size ≤ j →
          (j : Int) < (⟨3, 3, 100, [some 10, some 20, some 30]⟩ : Vector Int).size →
          w.store[j]? = some (some 0)) :=
  ⟨by simp [WellFormed],
    (eager_clear_on_shrink _ 200 (by simp [WellFormed])).1 101 (by decide) (by decide),
    (eager_clear_on_shrink _ 200 (by simp [WellFormed])).2 2 0 (by decide) (by decide)⟩

/-! ## `begin()`, `end()` and iteration -/

/-- The traversal loop started at slot `k` with `N - k` units of fuel reads the
slots `[k, N)` in order. -/
theorem visitLoop_spec (fuel : Nat) :
    ∀ (n0 sp e : Int) (s : Block T) (k N : Nat), e ≠ 0 → N ≤ s.length → k + fuel = N →
      visitLoop fuel ⟨n0, sp, e, s⟩ (e + k) (e + N) = .ok ((s.take N).drop k) := by
  induction fuel with
  | zero =>
    intro n0 sp e s k N _ _ hk
    have h1 : ¬ (e + (k : Int) ≠ e + (N : Int)) := by omega
    simp only [visitLoop, h1, if_false]
    rw [List.drop_eq_nil_of_le (by simp; omega)]
  | succ f ih =>
    intro n0 sp e s k N he hs hk
    have h1 : e + (k : Int) ≠ e + (N : Int) := by omega
    have hadd : e + (k : Int) + 1 = e + ((k + 1 : Nat) : Int) := by omega
    have hk2 : k < (s.take N).length := by simp; omega
    have hk3 : k < s.length := by omega
    simp only [visitLoop, h1, ne_eq, not_false_eq_true, if_true]
    rw [load_slot n0 sp e s k he hk3]
    simp only [Except.bind]
    rw [hadd, ih n0 sp e s (k + 1) N he hs (by omega), List.drop_eq_getElem_cons hk2]
    simp [Except.map, List.getElem?_eq_getElem hk3]

/-- C17: on a well-formed vector with `size() == 0`, with or without a block,
`begin()` and `end()` are both the null pointer and the traversal visits
nothing; with `size() > 0`, `begin()` is the address of slot 0, `end()` is the
address of slot `size`, `end() - begin() == size()`, the position `begin() + i`
reads `v[i]` for each live index `i`, and the traversal from `begin()` to
`end()` visits exactly the live elements `v[0], ..., v[size-1]` in order. -/
theorem begin_end_live_range (v : Vector T) (hwf : v.WellFormed) :
    (v.size = 0 → v.begin = 0 ∧ v.end_ = 0 ∧ v.begin = v.end_ ∧ v.iterate = .ok []) ∧
      (0 < v.size →
        v.elem ≠ 0 ∧ v.begin = v.elem ∧ v.end_ = v.elem + v.size ∧
        v.end_ - v.begin = v.size ∧
        (∀ i : Nat, (i : Int) < v.size →
          v.load (v.begin + i) = v.get i ∧ v.get i = .ok (v.live.getD i none)) ∧
        (v.live.length : Int) = v.size ∧ v.iterate = .ok v.live) := by
  simp only [size]
  constructor
  · intro hz
    simp [begin, end_, hz, iterate, visitLoop]
  · intro hpos
    obtain ⟨n, sp, e, s⟩ := v
    have hwf2 := hwf
    obtain ⟨h0, hle, hlen, he0, he⟩ := hwf
    simp only at h0 hle hlen he0 he hpos
    lift n to ℕ using h0
    have hne : e ≠ 0 := fun h => by have := he h; omega
    have hn0 : (n : Int) ≠ 0 := by omega
    have hbeg : begin (⟨n, sp, e, s⟩ : Vector T) = e := by
      simp only [begin, hn0, ne_eq, not_false_eq_true, if_true, add_zero]
    have hend : end_ (⟨n, sp, e, s⟩ : Vector T) = e + (n : Int) := by
      simp only [end_, hn0, ne_eq, not_false_eq_true, if_true]
    have hfuel : (e + (n : Int) - e).toNat = n := by omega
    refine ⟨hne, hbeg, hend, by rw [hbeg, hend]; simp only; omega, ?_, ?_, ?_⟩
    · intro i hi
      refine ⟨by rw [hbeg]; rfl, get_live _ i hwf2 hi⟩
    · simp only [live, Int.toNat_ofNat, List.length_take]
      omega
    · have h1 := visitLoop_spec n n sp e s 0 n hne (by omega) (by omega)
      simp only [Nat.cast_zero, add_zero, List.drop_zero] at h1
      simp only [iterate, hbeg, hend, hfuel, live, Int.toNat_ofNat]
      exact h1

theorem begin_end_live_range_witness :
    (⟨3, 4, 100, [some 10, some 20, some 30, none]⟩ : Vector Int).WellFormed ∧
      0 < (⟨3, 4, 100, [some 10, some 20, some 30, none]⟩ : Vector Int).size ∧
      ((⟨3, 4, 100, [some 10, some 20, some 30, none]⟩ : Vector Int).elem ≠ 0 ∧
        (⟨3, 4, 100, [some 10, some 20, some 30, none]⟩ : Vector Int).begin =
          (⟨3, 4, 100, [some 10, some 20, some 30, none]⟩ : Vector Int).elem ∧
        (⟨3, 4, 100, [some 10, some 20, some 30, none]⟩ : Vector Int).end_ =
          (⟨3, 4, 100, [some 10, some 20, some 30, none]⟩ : Vector Int).elem +
            (⟨3, 4, 100, [some 10, some 20, some 30, none]⟩ : Vector Int).size ∧
        (⟨3, 4, 100, [some 10, some 20, some 30, none]⟩ : Vector Int).end_ -
            (⟨3, 4, 100, [some 10, some 20, some 30, none]⟩ : Vector Int).begin =
          (⟨3, 4, 100, [some 10, some 20, some 30, none]⟩ : Vector Int).size ∧
        (∀ i : Nat, (i : Int) < (⟨3, 4, 100, [some 10, some 20, some 30, none]⟩ : Vector Int).size →
          (⟨3, 4, 100, [some 10, some 20, some 30, none]⟩ : Vector Int).load
              ((⟨3, 4, 100, [some 10, some 20, some 30, none]⟩ : Vector Int).begin + i) =
            (⟨3, 4, 100, [some 10, some 20, some 30, none]⟩ : Vector Int).get i ∧
          (⟨3, 4, 100, [some 10, some 20, some 30, none]⟩ : Vector Int).get i =
            .ok ((⟨3, 4, 100, [some 10, some 20, some 30, none]⟩ : Vector Int).live.getD i none)) ∧
        ((⟨3, 4, 100, [some 10, some 20, some 30, none]⟩ : Vector Int).live.length : Int) =
          (⟨3, 4, 100, [some 10, some 20, some 30, none]⟩ : Vector Int).size ∧
        (⟨3, 4, 100, [some 10, some 20, some 30, none]⟩ : Vector Int).iterate =
          .ok (⟨3, 4, 100, [some 10, some 20, some 30, none]⟩ : Vector Int).live) ∧
      (⟨3, 4, 100, [some 10, some 20, some 30, none]⟩ : Vector Int).iterate =
        .ok [some 10, some 20, some 30] :=
  ⟨by simp [WellFormed], by decide,
    (begin_end_live_range _ (by simp [WellFormed])).2 (by decide), by rfl⟩

end Vector

end MC_Vec
